import Mathlib

/-!
Verification of `lume_model/torch/module.py` (class `LUMEModule`).

The adapter wraps an evaluatable model (whose `evaluate` maps a dictionary of
named tensors to a dictionary of named tensors) behind a single-tensor calling
convention.  Tensors are embedded as a shape (list of dimension sizes) together
with a flat row-major data list; the relevant torch primitives
(`x[..., idx]`, `unsqueeze(-1)`, `torch.stack(-, dim=-1)`, `squeeze()`) are
given their documented semantics on that representation.  Fallible torch
operations (out-of-range indexing, `KeyError` on dictionary lookup, `stack` on
an empty or shape-mismatched list, the rank check in `_validate_input`) are
embedded in `Except LumeError`.
-/

/-- A torch tensor: a shape together with its elements in row-major order. -/
structure Tensor (α : Type) where
  shape : List Nat
  data : List α
deriving DecidableEq

instance {α : Type} : Inhabited (Tensor α) := ⟨⟨[], []⟩⟩

variable {α : Type}

/-- `x.dim()`: the number of axes. -/
def Tensor.dim (x : Tensor α) : Nat := x.shape.length

/-- Row-major well-formedness: the data list has exactly `shape.prod` elements. -/
def Tensor.WF (x : Tensor α) : Prop := x.data.length = x.shape.prod

/-- The tensor `x[..., idx]` (no bounds check): drop the last axis and pick, for
each multi-index over the leading axes, the element in column `idx` of the last
axis.  In row-major order the entry at flat leading-index `i` is
`data[i * lastDim + idx]`. -/
def Tensor.sliceLast [Inhabited α] (x : Tensor α) (idx : Nat) : Tensor α :=
  { shape := x.shape.dropLast
    data := (List.range x.shape.dropLast.prod).map fun i =>
      x.data.getD (i * x.shape.getLastD 0 + idx) default }

/-- `x[..., idx]` with torch's bounds check: `none` (an `IndexError`) when `idx`
is not below the last dimension, or when the tensor is zero-dimensional. -/
def Tensor.selectLast [Inhabited α] (x : Tensor α) (idx : Nat) : Option (Tensor α) :=
  if idx < x.shape.getLastD 0 then some (x.sliceLast idx) else none

/-- `t.unsqueeze(-1)`: append a trailing singleton axis; the data is unchanged. -/
def Tensor.unsqueezeLast (x : Tensor α) : Tensor α :=
  { shape := x.shape ++ [1], data := x.data }

/-- `t.squeeze()`: remove every axis of size 1; the row-major data is unchanged. -/
def Tensor.squeeze (x : Tensor α) : Tensor α :=
  { shape := x.shape.filter (fun d => d ≠ 1), data := x.data }

/-- `torch.stack(ts, dim=-1)`: requires a non-empty list of tensors of equal
shape `s`; the result has shape `s ++ [ts.length]` and, in row-major order,
interleaves the tensors along the new trailing axis.  `none` models the
`RuntimeError` raised on an empty list or mismatched shapes. -/
def stackLast [Inhabited α] (ts : List (Tensor α)) : Option (Tensor α) :=
  match ts with
  | [] => none
  | t :: rest =>
    if rest.all fun u => u.shape == t.shape then
      some { shape := t.shape ++ [rest.length + 1]
             data := (List.range t.shape.prod).flatMap fun i =>
               (t :: rest).map fun u => u.data.getD i default }
    else none

/-- A Python `dict` from names to tensors, as the list of its insertions. -/
abbrev Dict (α : Type) : Type := List (String × Tensor α)

/-- Python dict lookup `d[k]`: the most recent insertion of the key wins. -/
def dictGet : Dict α → String → Option (Tensor α)
  | [], _ => none
  | p :: d, k =>
    match dictGet d k with
    | some v => some v
    | none => if p.1 = k then some p.2 else none

/-- The exceptions the adapter's evaluation path can raise.  `invalidInput`
carries the shape received (the `ValueError` message of `_validate_input`
interpolates `tuple(x.shape)`; its expected-shape text `[n_samples, n_features]`
is a string constant).  `modelError` is any exception raised inside the wrapped
model's own `evaluate`, which is opaque to this file. -/
inductive LumeError where
  | invalidInput (received : List Nat)
  | indexError (idx : Nat)
  | keyError (name : String)
  | stackError
  | modelError (msg : String)
deriving DecidableEq

/-- The `LUMEModule` adapter: the wrapped model's `evaluate` function and the
two name orderings fixed at construction. -/
structure LUMEModule (α : Type) where
  model : Dict α → Except String (Dict α)
  feature_order : List String
  output_order : List String

/-- `LUMEModule.__init__`: stores the model and the two orderings unchanged
(the `register_module` call only re-exposes the model's underlying module for
torch bookkeeping and touches none of the three fields).  Both orderings
default to the empty list, as in the source. -/
def LUMEModule.init (model : Dict α → Except String (Dict α))
    (feature_order : List String := []) (output_order : List String := []) :
    LUMEModule α :=
  { model := model, feature_order := feature_order, output_order := output_order }

/-- `LUMEModule.evaluate_model`: delegate to the wrapped model's `evaluate`. -/
def LUMEModule.evaluate_model (M : LUMEModule α) (x : Dict α) : Except String (Dict α) :=
  M.model x

/-- `LUMEModule.manipulate_outcome`: the identity placeholder. -/
def LUMEModule.manipulate_outcome (_M : LUMEModule α) (y : Dict α) : Dict α := y

/-- The loop of `_tensor_to_dictionary`: `input_dict[feature] =
x[..., idx].unsqueeze(-1)` for `(idx, feature)` in `enumerate(feature_order)`,
starting from column `i0`; the first out-of-range column raises. -/
def tensorToDictAux [Inhabited α] (x : Tensor α) :
    List String → Nat → Except LumeError (Dict α)
  | [], _ => .ok []
  | f :: rest, idx =>
    match x.selectLast idx with
    | some t => (tensorToDictAux x rest (idx + 1)).map fun d => (f, t.unsqueezeLast) :: d
    | none => .error (.indexError idx)

/-- `LUMEModule._tensor_to_dictionary`. -/
def LUMEModule.tensor_to_dictionary [Inhabited α] (M : LUMEModule α) (x : Tensor α) :
    Except LumeError (Dict α) :=
  tensorToDictAux x M.feature_order 0

/-- The list comprehension `[y_model[outcome].unsqueeze(-1) for outcome in
self._output_order]`: looked up left to right, the first missing name raises
`KeyError`. -/
def lookupAll : List String → Dict α → Except LumeError (List (Tensor α))
  | [], _ => .ok []
  | nm :: rest, y =>
    match dictGet y nm with
    | some t => (lookupAll rest y).map fun ts => t.unsqueezeLast :: ts
    | none => .error (.keyError nm)

/-- `LUMEModule._dictionary_to_tensor`: stack the unsqueezed outputs named in
`output_order` along a new trailing axis, then squeeze. -/
def LUMEModule.dictionary_to_tensor [Inhabited α] (M : LUMEModule α) (y : Dict α) :
    Except LumeError (Tensor α) :=
  match lookupAll M.output_order y with
  | .error e => .error e
  | .ok ts =>
    match stackLast ts with
    | some t => .ok t.squeeze
    | none => .error .stackError

/-- `LUMEModule._validate_input`: raise `ValueError` when `x.dim() <= 1`,
otherwise return the input unchanged. -/
def validate_input (x : Tensor α) : Except LumeError (Tensor α) :=
  if x.dim ≤ 1 then .error (.invalidInput x.shape) else .ok x

/-- `LUMEModule.forward` (the adapter's `evaluate`): validate the rank, split
the tensor into a dictionary, evaluate the wrapped model, apply the identity
post-processing, reassemble, and squeeze the result once more. -/
def LUMEModule.forward [Inhabited α] (M : LUMEModule α) (x : Tensor α) :
    Except LumeError (Tensor α) :=
  match validate_input x with
  | .error e => .error e
  | .ok x1 =>
    match M.tensor_to_dictionary x1 with
    | .error e => .error e
    | .ok model_input =>
      match M.evaluate_model model_input with
      | .error e => .error (.modelError e)
      | .ok y0 =>
        match M.dictionary_to_tensor (M.manipulate_outcome y0) with
        | .error e => .error e
        | .ok y => .ok y.squeeze

/-- State-passing form of `forward`: every step also returns the module, so
that a frame property (no mutation of the adapter's fields) is expressible.
The source assigns to no attribute of `self` anywhere on the path, so each step
hands the module through unchanged. -/
def LUMEModule.forwardS [Inhabited α] (M : LUMEModule α) (x : Tensor α) :
    LUMEModule α × Except LumeError (Tensor α) :=
  match validate_input x with
  | .error e => (M, .error e)
  | .ok x1 =>
    match M.tensor_to_dictionary x1 with
    | .error e => (M, .error e)
    | .ok model_input =>
      match M.evaluate_model model_input with
      | .error e => (M, .error (.modelError e))
      | .ok y0 =>
        match M.dictionary_to_tensor (M.manipulate_outcome y0) with
        | .error e => (M, .error e)
        | .ok y => (M, .ok y.squeeze)

/-! ## Basic lemmas about the tensor primitives -/

theorem Tensor.squeeze_squeeze (x : Tensor α) : x.squeeze.squeeze = x.squeeze := by
  simp [Tensor.squeeze, List.filter_filter]

theorem Tensor.one_not_mem_squeeze (x : Tensor α) : 1 ∉ x.squeeze.shape := by
  simp [Tensor.squeeze, List.mem_filter]

theorem getD_drop (l : List α) (n m : Nat) (d : α) :
    (l.drop n).getD m d = l.getD (n + m) d := by
  simp [List.getD_eq_getElem?_getD, List.getElem?_drop]

theorem getD_map_range (f : Nat → α) (d : α) (P i : Nat) (h : i < P) :
    ((List.range P).map f).getD i d = f i := by
  rw [List.getD_eq_getElem?_getD,
    List.getElem?_eq_getElem (by simpa using h : i < ((List.range P).map f).length)]
  simp

theorem range_map_getD_take (d : α) :
    ∀ (k : Nat) (l : List α), k ≤ l.length →
      (List.range k).map (fun j => l.getD j d) = l.take k
  | 0, l, _ => by simp
  | k + 1, l, h => by
    rw [List.range_succ, List.map_append, range_map_getD_take d k l (by omega)]
    have hk : k < l.length := by omega
    rw [List.take_succ, List.getElem?_eq_getElem hk]
    simp [List.getD_eq_getElem?_getD, List.getElem?_eq_getElem hk]

theorem flatMap_range_chunks (d : α) (k : Nat) :
    ∀ (P : Nat) (l : List α), l.length = P * k →
      ((List.range P).flatMap fun i => (List.range k).map fun j => l.getD (i * k + j) d) = l
  | 0, l, h => by
    simp at h
    simp [h]
  | P + 1, l, h => by
    have hk : k ≤ l.length := by rw [h]; calc k ≤ P * k + k := by omega
                                             _ = (P + 1) * k := by ring
    have hdrop : (l.drop k).length = P * k := by
      rw [List.length_drop, h]; ring_nf; omega
    have hsecond : ∀ i : Nat,
        ((List.range k).map fun j => l.getD ((i + 1) * k + j) d) =
        ((List.range k).map fun j => (l.drop k).getD (i * k + j) d) := by
      intro i
      apply List.map_congr_left
      intro j _
      rw [getD_drop]
      congr 1
      ring
    rw [List.range_succ_eq_map, List.flatMap_cons, List.flatMap_map]
    simp only [Nat.zero_mul, Nat.zero_add]
    rw [range_map_getD_take d k l hk]
    simp only [hsecond]
    rw [flatMap_range_chunks d k P (l.drop k) hdrop, List.take_append_drop]

/-! ## Lemmas about the split step, the lookup step and stacking -/

theorem tensorToDictAux_ok [Inhabited α] (x : Tensor α) :
    ∀ (fo : List String) (i0 : Nat), fo.Nodup →
      i0 + fo.length ≤ x.shape.getLastD 0 →
      ∃ d, tensorToDictAux x fo i0 = .ok d ∧
        (∀ nm, nm ∉ fo → dictGet d nm = none) ∧
        ∀ j (hj : j < fo.length),
          dictGet d fo[j] = some ((x.sliceLast (i0 + j)).unsqueezeLast)
  | [], _, _, _ => ⟨[], rfl, fun _ _ => rfl, fun j hj => absurd hj (by simp)⟩
  | f :: rest, i0, hnd, hle => by
    obtain ⟨hf, hnd'⟩ := List.nodup_cons.mp hnd
    have hi0 : i0 < x.shape.getLast?.getD 0 := by
      simp only [List.length_cons] at hle
      have := List.getLastD_eq_getLast? 0 x.shape
      omega
    obtain ⟨d', hd', hnone, hget⟩ :=
      tensorToDictAux_ok x rest (i0 + 1) hnd'
        (by simp only [List.length_cons] at hle; omega)
    refine ⟨(f, (x.sliceLast i0).unsqueezeLast) :: d', ?_, ?_, ?_⟩
    · simp [tensorToDictAux, Tensor.selectLast, hi0, hd', Except.map]
    · intro nm hnm
      simp only [List.mem_cons, not_or] at hnm
      simp [dictGet, hnone nm hnm.2, Ne.symm hnm.1]
    · intro j hj
      match j with
      | 0 => simp [dictGet, hnone f hf]
      | j + 1 =>
        have hj' : j < rest.length := by simpa using hj
        have harith : i0 + (j + 1) = i0 + 1 + j := by omega
        simp only [List.getElem_cons_succ, harith]
        simp [dictGet, hget j hj']

theorem tensorToDictAux_isOk [Inhabited α] (x : Tensor α) :
    ∀ (fo : List String) (i0 : Nat), i0 + fo.length ≤ x.shape.getLastD 0 →
      ∃ d, tensorToDictAux x fo i0 = .ok d
  | [], _, _ => ⟨[], rfl⟩
  | f :: rest, i0, hle => by
    have hi0 : i0 < x.shape.getLast?.getD 0 := by
      simp only [List.length_cons] at hle
      have := List.getLastD_eq_getLast? 0 x.shape
      omega
    obtain ⟨d', hd'⟩ :=
      tensorToDictAux_isOk x rest (i0 + 1) (by simp only [List.length_cons] at hle; omega)
    refine ⟨(f, ((x.sliceLast i0).unsqueezeLast)) :: d', ?_⟩
    simp [tensorToDictAux, Tensor.selectLast, hi0, hd', Except.map]

theorem lookupAll_ok (v : String → Tensor α) :
    ∀ (oo : List String) (y : Dict α), (∀ nm ∈ oo, dictGet y nm = some (v nm)) →
      lookupAll oo y = .ok (oo.map fun nm => (v nm).unsqueezeLast)
  | [], _, _ => rfl
  | nm :: rest, y, h => by
    have h1 := h nm (by simp)
    have h2 := lookupAll_ok v rest y (fun m hm => h m (by simp [hm]))
    simp [lookupAll, h1, h2, Except.map]

theorem stackLast_of_shapes [Inhabited α] (ts : List (Tensor α)) (s : List Nat)
    (hne : ts ≠ []) (hs : ∀ t ∈ ts, t.shape = s) :
    stackLast ts = some
      ⟨s ++ [ts.length],
        (List.range s.prod).flatMap fun i => ts.map fun u => u.data.getD i default⟩ := by
  match ts, hne with
  | t :: rest, _ =>
    have ht : t.shape = s := hs t (by simp)
    have hall : (rest.all fun u => u.shape == t.shape) = true := by
      rw [List.all_eq_true]
      intro u hu
      rw [beq_iff_eq, hs u (by simp [hu]), ht]
    simp only [stackLast]
    rw [if_pos hall]
    simp [ht]

theorem tensorToDictAux_error [Inhabited α] (x : Tensor α) :
    ∀ (fo : List String) (i0 : Nat) (e : LumeError),
      tensorToDictAux x fo i0 = .error e → ∃ i, e = .indexError i
  | [], _, _, h => by simp [tensorToDictAux] at h
  | _ :: rest, i0, e, h => by
    rw [tensorToDictAux] at h
    split at h
    · match hrec : tensorToDictAux x rest (i0 + 1) with
      | .ok d => rw [hrec] at h; simp [Except.map] at h
      | .error e' =>
        rw [hrec] at h
        simp only [Except.map, Except.error.injEq] at h
        exact h ▸ tensorToDictAux_error x rest (i0 + 1) e' hrec
    · exact ⟨i0, by simpa using h.symm⟩

theorem lookupAll_error :
    ∀ (oo : List String) (y : Dict α) (e : LumeError),
      lookupAll oo y = .error e → ∃ nm, e = .keyError nm
  | [], _, _, h => by simp [lookupAll] at h
  | nm :: rest, y, e, h => by
    rw [lookupAll] at h
    split at h
    · match hrec : lookupAll rest y with
      | .ok ts => rw [hrec] at h; simp [Except.map] at h
      | .error e' =>
        rw [hrec] at h
        simp only [Except.map, Except.error.injEq] at h
        exact h ▸ lookupAll_error rest y e' hrec
    · exact ⟨nm, by simpa using h.symm⟩

theorem dictionary_to_tensor_error [Inhabited α] (M : LUMEModule α) (y : Dict α)
    (e : LumeError) (h : M.dictionary_to_tensor y = .error e) :
    (∃ nm, e = .keyError nm) ∨ e = .stackError := by
  rw [LUMEModule.dictionary_to_tensor] at h
  split at h
  next e' heq =>
    injection h with h
    exact Or.inl (h ▸ lookupAll_error _ _ _ heq)
  next ts heq =>
    split at h
    next t heq2 => simp at h
    next heq2 =>
      injection h with h
      exact Or.inr h.symm

theorem validate_input_ok (x : Tensor α) (h : 2 ≤ x.dim) : validate_input x = .ok x := by
  rw [validate_input, if_neg]
  omega

/-- Central computation of a successful `forward` call: when the rank check
passes, the split step succeeds with dictionary `md`, and the wrapped model
returns a dictionary assigning to every name of `output_order` a tensor
(`v nm`) of the common shape `s`, the result is the stack of the `v nm` (with
two interleaved singleton axes, one from the comprehension's `unsqueeze(-1)`
and one from `stack(dim=-1)` applied after it) squeezed of all singleton
dimensions. -/
theorem forward_core [Inhabited α] (M : LUMEModule α) (x : Tensor α)
    (md ys : Dict α) (v : String → Tensor α) (s : List Nat)
    (hdim : 2 ≤ x.dim)
    (hmd : M.tensor_to_dictionary x = .ok md)
    (hys : M.model md = .ok ys)
    (hv : ∀ nm ∈ M.output_order, dictGet ys nm = some (v nm))
    (hs : ∀ nm ∈ M.output_order, (v nm).shape = s)
    (hne : M.output_order ≠ []) :
    M.forward x =
      .ok ⟨(s ++ [1] ++ [M.output_order.length]).filter (fun d => d ≠ 1),
        (List.range s.prod).flatMap fun i =>
          M.output_order.map fun nm => (v nm).data.getD i default⟩ := by
  have hval := validate_input_ok x hdim
  have hlook := lookupAll_ok v M.output_order ys hv
  have hmapne : (M.output_order.map fun nm => (v nm).unsqueezeLast) ≠ [] := by
    simpa using hne
  have hshapes : ∀ t ∈ M.output_order.map fun nm => (v nm).unsqueezeLast,
      t.shape = s ++ [1] := by
    intro t ht
    obtain ⟨nm, hnm, rfl⟩ := List.mem_map.mp ht
    simp [Tensor.unsqueezeLast, hs nm hnm]
  have hstack := stackLast_of_shapes _ (s ++ [1]) hmapne hshapes
  simp only [LUMEModule.forward, hval, hmd, LUMEModule.evaluate_model, hys,
    LUMEModule.manipulate_outcome, LUMEModule.dictionary_to_tensor, hlook, hstack]
  rw [Tensor.squeeze_squeeze]
  simp only [Tensor.squeeze, Tensor.unsqueezeLast, List.map_map, List.length_map,
    List.prod_append, List.prod_cons, List.prod_nil, Nat.mul_one, Nat.one_mul]
  exact rfl

/-! ## The claims -/

/-- Claim C2: `evaluate` raises `InvalidInputError` if and only if the input
tensor has rank 0 or 1; the error carries the shape received (the expected
shape `[n_samples, n_features]` is a constant of the message), and no input of
rank at least 2 ever produces this particular error, whatever its feature
count: any other failure is an `IndexError`, a `KeyError`, a stacking
`RuntimeError`, or an error of the wrapped model. -/
theorem lume_C2_rank_check [Inhabited α] (M : LUMEModule α) (x : Tensor α) :
    (x.dim ≤ 1 → M.forward x = .error (.invalidInput x.shape)) ∧
    (∀ s, M.forward x = .error (.invalidInput s) → x.dim ≤ 1 ∧ s = x.shape) := by
  constructor
  · intro h
    have hv : validate_input x = .error (.invalidInput x.shape) := by
      rw [validate_input, if_pos h]
    simp [LUMEModule.forward, hv]
  · intro s h
    by_cases hd : x.dim ≤ 1
    · have hv : validate_input x = .error (.invalidInput x.shape) := by
        rw [validate_input, if_pos hd]
      simp only [LUMEModule.forward, hv, Except.error.injEq, LumeError.invalidInput.injEq] at h
      exact ⟨hd, h.symm⟩
    · exfalso
      have hv := validate_input_ok x (by omega)
      simp only [LUMEModule.forward, hv] at h
      cases ht : M.tensor_to_dictionary x with
      | error e =>
        simp only [ht] at h
        obtain ⟨i, rfl⟩ := tensorToDictAux_error x M.feature_order 0 e ht
        simp at h
      | ok md =>
        simp only [ht, LUMEModule.evaluate_model] at h
        cases hm : M.model md with
        | error msg => simp [hm] at h
        | ok ys =>
          simp only [hm, LUMEModule.manipulate_outcome] at h
          cases hd2 : M.dictionary_to_tensor ys with
          | error e =>
            simp only [hd2] at h
            rcases dictionary_to_tensor_error M ys e hd2 with ⟨nm, rfl⟩ | rfl <;> simp at h
          | ok y => simp [hd2] at h

/-- Witness for C2 at the spec's scenario: an input of shape `[5]` (rank 1)
raises `InvalidInputError` reporting the received shape `(5,)`. -/
theorem lume_C2_rank_check_witness :
    (LUMEModule.init (α := Int) (fun d => .ok d) ["a"] ["a"]).forward
      ⟨[5], [1, 2, 3, 4, 5]⟩ = .error (.invalidInput [5]) :=
  (lume_C2_rank_check (LUMEModule.init (fun d => .ok d) ["a"] ["a"])
    ⟨[5], [1, 2, 3, 4, 5]⟩).1 (by decide)

/-- Claim C6: `forward` mutates no adapter state: in the state-passing reading
of the method every step hands the module through unchanged, whether the call
returns normally or raises, and the result agrees with the pure `forward`. -/
theorem lume_C6_no_mutation [Inhabited α] (M : LUMEModule α) (x : Tensor α) :
    M.forwardS x = (M, M.forward x) := by
  cases hv : validate_input x with
  | error e => simp [LUMEModule.forwardS, LUMEModule.forward, hv]
  | ok x1 =>
    cases ht : M.tensor_to_dictionary x1 with
    | error e => simp [LUMEModule.forwardS, LUMEModule.forward, hv, ht]
    | ok md =>
      cases hm : M.evaluate_model md with
      | error e => simp [LUMEModule.forwardS, LUMEModule.forward, hv, ht, hm]
      | ok y0 =>
        cases hd2 : M.dictionary_to_tensor (M.manipulate_outcome y0) with
        | error e => simp [LUMEModule.forwardS, LUMEModule.forward, hv, ht, hm, hd2]
        | ok y => simp [LUMEModule.forwardS, LUMEModule.forward, hv, ht, hm, hd2]

/-- Claim C7: construction is total and performs no validation: for every
model and every pair of orderings, `__init__` succeeds and stores the three
fields unchanged. -/
theorem lume_C7_construction (model : Dict α → Except String (Dict α))
    (feature_order output_order : List String) :
    (LUMEModule.init model feature_order output_order).model = model ∧
    (LUMEModule.init model feature_order output_order).feature_order = feature_order ∧
    (LUMEModule.init model feature_order output_order).output_order = output_order :=
  ⟨rfl, rfl, rfl⟩

/-- Claim C9: whenever `forward` returns normally, the returned tensor has no
axis of size 1: the final `squeeze()` removes every singleton dimension,
whichever axis it came from. -/
theorem lume_C9_no_singleton_dims [Inhabited α] (M : LUMEModule α) (x y : Tensor α)
    (h : M.forward x = .ok y) : 1 ∉ y.shape := by
  rw [LUMEModule.forward] at h
  split at h
  · simp at h
  · split at h
    · simp at h
    · split at h
      · simp at h
      · split at h
        · simp at h
        · injection h with h
          rw [← h]
          exact Tensor.one_not_mem_squeeze _

/-- Witness for C9: a successful concrete call returns a tensor of shape
`[2]`, which indeed contains no singleton axis. -/
theorem lume_C9_no_singleton_dims_witness :
    1 ∉ (Tensor.mk [2] [1, 3] : Tensor Int).shape :=
  lume_C9_no_singleton_dims (LUMEModule.init (fun d => .ok d) ["a"] ["a"])
    ⟨[2, 2], [1, 2, 3, 4]⟩ ⟨[2], [1, 3]⟩ rfl

/-- Claim C10: with the default (empty) orderings, a rank-valid call can never
return successfully: when the wrapped model returns normally the reassembly
step stacks an empty list and raises, and when the model itself raises the
call fails with the model's error instead. -/
theorem lume_C10_default_orderings [Inhabited α] (M : LUMEModule α) (x : Tensor α)
    (hfo : M.feature_order = []) (hoo : M.output_order = []) (hdim : 2 ≤ x.dim) :
    (∀ ys, M.model [] = .ok ys → M.forward x = .error .stackError) ∧
    ∀ y, M.forward x ≠ .ok y := by
  have hval := validate_input_ok x hdim
  have hmd : M.tensor_to_dictionary x = .ok [] := by
    rw [LUMEModule.tensor_to_dictionary, hfo]
    rfl
  have hd2 : ∀ z : Dict α, M.dictionary_to_tensor z = .error .stackError := by
    intro z
    rw [LUMEModule.dictionary_to_tensor, hoo]
    rfl
  constructor
  · intro ys hys
    simp [LUMEModule.forward, hval, hmd, LUMEModule.evaluate_model, hys,
      LUMEModule.manipulate_outcome, hd2]
  · intro y hy
    simp only [LUMEModule.forward, hval, hmd, LUMEModule.evaluate_model] at hy
    cases hm : M.model [] with
    | error msg => simp [hm] at hy
    | ok ys => simp [hm, LUMEModule.manipulate_outcome, hd2] at hy

/-- Witness for C10: an adapter built with both orderings left at their
defaults fails with the stacking error on a well-formed rank-2 input. -/
theorem lume_C10_default_orderings_witness :
    (LUMEModule.init (α := Int) (fun d => .ok d)).forward ⟨[2, 2], [1, 2, 3, 4]⟩ =
      .error .stackError :=
  (lume_C10_default_orderings (LUMEModule.init (fun d => .ok d))
    ⟨[2, 2], [1, 2, 3, 4]⟩ rfl rfl (by decide)).1 [] rfl

/-- Claim C4: on any input of rank at least 2 whose last dimension is at least
`len(feature_order)`, the split step succeeds and assigns to the `i`-th name of
`feature_order` the slice of the input at column `i` of the last axis, with all
leading dimensions retained and a trailing singleton appended (the orderings
key a mapping by name, so the feature names are assumed distinct). -/
theorem lume_C4_split_mapping [Inhabited α] (M : LUMEModule α) (x : Tensor α)
    (hdim : 2 ≤ x.dim) (hnd : M.feature_order.Nodup)
    (hlen : M.feature_order.length ≤ x.shape.getLastD 0) :
    ∃ d, M.tensor_to_dictionary x = .ok d ∧
      ∀ i (hi : i < M.feature_order.length),
        dictGet d M.feature_order[i] = some ((x.sliceLast i).unsqueezeLast) ∧
        ((x.sliceLast i).unsqueezeLast).shape = x.shape.dropLast ++ [1] := by
  obtain ⟨d, hd, _, hget⟩ := tensorToDictAux_ok x M.feature_order 0 hnd (by omega)
  exact ⟨d, hd, fun i hi =>
    ⟨by simpa using hget i hi, by simp [Tensor.sliceLast, Tensor.unsqueezeLast]⟩⟩

/-- Witness for C4 on a concrete `[2, 2]` input with two features. -/
theorem lume_C4_split_mapping_witness :
    ∃ d, (LUMEModule.init (α := Int) (fun d => .ok d) ["a", "b"] ["a", "b"]).tensor_to_dictionary
        ⟨[2, 2], [1, 2, 3, 4]⟩ = .ok d ∧
      ∀ i (hi : i < (LUMEModule.init (α := Int) (fun d => .ok d)
          ["a", "b"] ["a", "b"]).feature_order.length),
        dictGet d (LUMEModule.init (α := Int) (fun d => .ok d) ["a", "b"] ["a", "b"]).feature_order[i] =
          some (((⟨[2, 2], [1, 2, 3, 4]⟩ : Tensor Int).sliceLast i).unsqueezeLast) ∧
        (((⟨[2, 2], [1, 2, 3, 4]⟩ : Tensor Int).sliceLast i).unsqueezeLast).shape =
          (⟨[2, 2], [1, 2, 3, 4]⟩ : Tensor Int).shape.dropLast ++ [1] :=
  lume_C4_split_mapping (LUMEModule.init (fun d => .ok d) ["a", "b"] ["a", "b"])
    ⟨[2, 2], [1, 2, 3, 4]⟩ (by decide) (by decide) (by decide)

/-- Claim C8 (implicit): when the last dimension strictly exceeds
`len(feature_order)`, the split step raises no error; it silently uses only the
first `len(feature_order)` columns (with distinct names, the mapping carries
exactly the slices at columns `0 .. len-1`), and the surplus columns are
ignored. -/
theorem lume_C8_surplus_columns [Inhabited α] (M : LUMEModule α) (x : Tensor α)
    (hdim : 2 ≤ x.dim) (hlen : M.feature_order.length < x.shape.getLastD 0) :
    ∃ d, M.tensor_to_dictionary x = .ok d ∧
      (M.feature_order.Nodup →
        ∀ i (hi : i < M.feature_order.length),
          dictGet d M.feature_order[i] = some ((x.sliceLast i).unsqueezeLast)) := by
  obtain ⟨d, hd⟩ := tensorToDictAux_isOk x M.feature_order 0 (by omega)
  refine ⟨d, hd, fun hnd i hi => ?_⟩
  obtain ⟨d', hd', _, hget⟩ := tensorToDictAux_ok x M.feature_order 0 hnd (by omega)
  rw [hd] at hd'
  injection hd' with hd'
  subst hd'
  simpa using hget i hi

/-- Witness for C8: three columns, two features; no error is raised and the
mapping holds the first two slices. -/
theorem lume_C8_surplus_columns_witness :
    ∃ d, (LUMEModule.init (α := Int) (fun d => .ok d) ["a", "b"] ["a", "b"]).tensor_to_dictionary
        ⟨[2, 3], [1, 2, 3, 4, 5, 6]⟩ = .ok d ∧
      ((LUMEModule.init (α := Int) (fun d => .ok d) ["a", "b"] ["a", "b"]).feature_order.Nodup →
        ∀ i (hi : i < (LUMEModule.init (α := Int) (fun d => .ok d)
            ["a", "b"] ["a", "b"]).feature_order.length),
          dictGet d (LUMEModule.init (α := Int) (fun d => .ok d)
              ["a", "b"] ["a", "b"]).feature_order[i] =
            some (((⟨[2, 3], [1, 2, 3, 4, 5, 6]⟩ : Tensor Int).sliceLast i).unsqueezeLast)) :=
  lume_C8_surplus_columns (LUMEModule.init (fun d => .ok d) ["a", "b"] ["a", "b"])
    ⟨[2, 3], [1, 2, 3, 4, 5, 6]⟩ (by decide) (by decide)

/-- Claim C5: given an output mapping assigning to every name of
`output_order` a tensor of a common shape, the reassembly step returns exactly
the tensor obtained by stacking the named tensors, in the order of
`output_order`, along a new trailing axis and then collapsing all singleton
dimensions (the code's extra `unsqueeze(-1)` before the stack only inserts a
singleton axis that the final squeeze removes again). -/
theorem lume_C5_reassembly [Inhabited α] (M : LUMEModule α) (y : Dict α)
    (v : String → Tensor α) (s : List Nat)
    (hv : ∀ nm ∈ M.output_order, dictGet y nm = some (v nm))
    (hs : ∀ nm ∈ M.output_order, (v nm).shape = s)
    (hne : M.output_order ≠ []) :
    ∃ t, stackLast (M.output_order.map v) = some t ∧
      M.dictionary_to_tensor y = .ok t.squeeze := by
  have h1 := stackLast_of_shapes (M.output_order.map v) s (by simpa using hne)
    (by
      intro t ht
      obtain ⟨nm, hnm, rfl⟩ := List.mem_map.mp ht
      exact hs nm hnm)
  have h2 := stackLast_of_shapes (M.output_order.map fun nm => (v nm).unsqueezeLast)
    (s ++ [1]) (by simpa using hne)
    (by
      intro t ht
      obtain ⟨nm, hnm, rfl⟩ := List.mem_map.mp ht
      simp [Tensor.unsqueezeLast, hs nm hnm])
  refine ⟨_, h1, ?_⟩
  simp only [LUMEModule.dictionary_to_tensor, lookupAll_ok v M.output_order y hv, h2]
  simp only [Tensor.squeeze, Tensor.unsqueezeLast, List.map_map, List.length_map,
    List.prod_append, List.prod_cons, List.prod_nil, Nat.mul_one, Nat.one_mul]
  refine congrArg Except.ok ?_
  refine congrArg₂ Tensor.mk ?_ rfl
  simp [List.filter_append, List.filter]

/-- Witness for C5 with a single named output of shape `[2]`. -/
theorem lume_C5_reassembly_witness :
    ∃ t, stackLast ((LUMEModule.init (α := Int) (fun d => .ok d) ["a"] ["a"]).output_order.map
        fun _ => (⟨[2], [1, 2]⟩ : Tensor Int)) = some t ∧
      (LUMEModule.init (α := Int) (fun d => .ok d) ["a"] ["a"]).dictionary_to_tensor
        [("a", ⟨[2], [1, 2]⟩)] = .ok t.squeeze :=
  lume_C5_reassembly (LUMEModule.init (fun d => .ok d) ["a"] ["a"])
    [("a", ⟨[2], [1, 2]⟩)] (fun _ => ⟨[2], [1, 2]⟩) [2]
    (by decide) (by decide) (by decide)

/-- Claim C1 as stated is false: at `b = 2`, `n = 1`, one feature and one
output (identity model, so the model returns for "a" a tensor of shape
`[b, n, 1] = [2, 1, 1]`, satisfying the claim's precondition), `forward`
returns a tensor of shape `[2]` — the final squeeze also removed the sample
axis `n = 1` — which is neither the claimed `[b, n] = [2, 1]` nor the claimed
fallback `[n] = [1]`. -/
theorem lume_C1_counterexample :
    (LUMEModule.init (α := Int) (fun d => .ok d) ["a"] ["a"]).forward
        ⟨[2, 1, 1], [5, 7]⟩ = .ok ⟨[2], [5, 7]⟩ ∧
    (Tensor.mk [2] [5, 7] : Tensor Int).shape ≠ [2, 1] ∧
    (Tensor.mk [2] [5, 7] : Tensor Int).shape ≠ [1] :=
  ⟨rfl, by decide, by decide⟩

/-- Claim C1, amended: for an input of shape `[b, n, len(feature_order)]` with
`b, n ≥ 1`, when the wrapped model returns for each name of the non-empty
`output_order` a tensor of shape `[b, n, 1]`, `forward` returns a tensor whose
shape is `[b, n, len(output_order)]` with every singleton dimension removed —
`[b, n]` (or `[n]` when `b = 1`, `[b]` when `n = 1`, `[]` when both) if
`len(output_order) = 1`, and `[b, n, len(output_order)]` collapsed of
singleton dims otherwise. -/
theorem lume_C1_output_shape [Inhabited α] (M : LUMEModule α) (x : Tensor α)
    (b n : Nat) (md ys : Dict α)
    (hb : 1 ≤ b) (hn : 1 ≤ n)
    (hx : x.shape = [b, n, M.feature_order.length])
    (hmd : M.tensor_to_dictionary x = .ok md)
    (hys : M.model md = .ok ys)
    (houts : ∀ nm ∈ M.output_order, ∃ t, dictGet ys nm = some t ∧ t.shape = [b, n, 1])
    (hne : M.output_order ≠ []) :
    ∃ y, M.forward x = .ok y ∧
      y.shape = [b, n, M.output_order.length].filter (fun d => d ≠ 1) := by
  have hv : ∀ nm ∈ M.output_order, dictGet ys nm = some ((dictGet ys nm).getD default) := by
    intro nm hnm
    obtain ⟨t, ht, _⟩ := houts nm hnm
    simp [ht]
  have hs : ∀ nm ∈ M.output_order, ((dictGet ys nm).getD default).shape = [b, n, 1] := by
    intro nm hnm
    obtain ⟨t, ht, hsh⟩ := houts nm hnm
    simp [ht, hsh]
  have hdim : 2 ≤ x.dim := by rw [Tensor.dim, hx]; simp
  have hcore := forward_core M x md ys (fun nm => (dictGet ys nm).getD default)
    [b, n, 1] hdim hmd hys hv hs hne
  refine ⟨_, hcore, ?_⟩
  simp [List.filter_append, List.filter]

/-- Witness for the amended C1: one output name, input shape `[2, 3, 1]`,
identity model; the output shape is `[2, 3, 1].filter (· ≠ 1) = [2, 3]`. -/
theorem lume_C1_output_shape_witness :
    ∃ y, (LUMEModule.init (α := Int) (fun d => .ok d) ["a"] ["a"]).forward
        ⟨[2, 3, 1], [1, 2, 3, 4, 5, 6]⟩ = .ok y ∧
      y.shape = [2, 3, (LUMEModule.init (α := Int) (fun d => .ok d)
        ["a"] ["a"]).output_order.length].filter (fun d => d ≠ 1) :=
  lume_C1_output_shape (LUMEModule.init (fun d => .ok d) ["a"] ["a"])
    ⟨[2, 3, 1], [1, 2, 3, 4, 5, 6]⟩ 2 3
    [("a", ⟨[2, 3, 1], [1, 2, 3, 4, 5, 6]⟩)] [("a", ⟨[2, 3, 1], [1, 2, 3, 4, 5, 6]⟩)]
    (by decide) (by decide) (by decide) rfl rfl (by decide) (by decide)

/-- Claim C3: the round trip is the identity up to the final squeeze.  With
`output_order = feature_order` (distinct names, length equal to the input's
last dimension), the identity model, and a well-formed input of shape
`[b, n, k]`, `forward` returns exactly the input tensor with its singleton
dimensions removed; on a shape like `[2, 3, 2]` with no singleton axis the
output equals the input, shape included. -/
theorem lume_C3_round_trip [Inhabited α] (M : LUMEModule α) (x : Tensor α)
    (b n k : Nat) (hb : 1 ≤ b) (hn : 1 ≤ n) (hk : 1 ≤ k)
    (hoo : M.output_order = M.feature_order)
    (hnd : M.feature_order.Nodup)
    (hlen : M.feature_order.length = k)
    (hid : ∀ d, M.model d = .ok d)
    (hx : x.shape = [b, n, k])
    (hwf : x.WF) :
    M.forward x = .ok x.squeeze := by
  have hlast : x.shape.getLastD 0 = k := by rw [hx]; rfl
  have hdrop : x.shape.dropLast = [b, n] := by rw [hx]; rfl
  obtain ⟨d, hd, _, hget⟩ := tensorToDictAux_ok x M.feature_order 0 hnd (by omega)
  have hmd : M.tensor_to_dictionary x = .ok d := hd
  have hv : ∀ nm ∈ M.output_order, dictGet d nm = some ((dictGet d nm).getD default) := by
    intro nm hnm
    rw [hoo] at hnm
    obtain ⟨j, hj, rfl⟩ := List.getElem_of_mem hnm
    simp [hget j hj]
  have hs : ∀ nm ∈ M.output_order, ((dictGet d nm).getD default).shape = [b, n, 1] := by
    intro nm hnm
    rw [hoo] at hnm
    obtain ⟨j, hj, rfl⟩ := List.getElem_of_mem hnm
    have := hget j hj
    simp only [Nat.zero_add] at this
    simp [this, Tensor.unsqueezeLast, Tensor.sliceLast, hdrop]
  have hdim : 2 ≤ x.dim := by rw [Tensor.dim, hx]; simp
  have hne : M.output_order ≠ [] := by
    rw [hoo]
    intro hcon
    rw [hcon] at hlen
    simp at hlen
    omega
  have hcore := forward_core M x d d (fun nm => (dictGet d nm).getD default)
    [b, n, 1] hdim hmd (hid d) hv hs hne
  rw [hcore]
  have hP2 : x.shape.dropLast.prod = b * n := by rw [hdrop]; simp
  have hlen2 : x.data.length = b * n * k := by
    have h' := hwf
    rw [Tensor.WF, hx] at h'
    simp only [List.prod_cons, List.prod_nil, Nat.mul_one] at h'
    rw [h']
    ring
  have hmap : ∀ i : Nat,
      (M.output_order.map fun nm => ((dictGet d nm).getD default).data.getD i default) =
      (List.range k).map fun j => (x.sliceLast j).data.getD i default := by
    intro i
    rw [hoo]
    apply List.ext_getElem (by simp [hlen])
    intro j h1 h2
    have hj : j < M.feature_order.length := by simpa using h1
    have hgj := hget j hj
    simp only [Nat.zero_add] at hgj
    simp only [List.getElem_map, List.getElem_range, hgj]
    simp [Tensor.unsqueezeLast]
  have hflat :
      ((List.range (b * n)).flatMap fun i =>
        (List.range k).map fun j => (x.sliceLast j).data.getD i default) =
      (List.range (b * n)).flatMap fun i =>
        (List.range k).map fun j => x.data.getD (i * k + j) default := by
    apply List.flatMap_congr
    intro i hi
    apply List.map_congr_left
    intro j _
    simp only [Tensor.sliceLast, hlast, hP2]
    exact getD_map_range _ _ _ _ (List.mem_range.mp hi)
  refine congrArg Except.ok ?_
  refine congrArg₂ Tensor.mk ?_ ?_
  · rw [hoo, hlen, hx]
    simp [List.filter_append, List.filter]
  · have hprod : ([b, n, 1] : List Nat).prod = b * n := by simp
    rw [hprod]
    simp only [hmap]
    rw [hflat, flatMap_range_chunks default k (b * n) x.data hlen2]

/-- Witness for C3 at the spec's scenario: `feature_order = output_order =
["a", "b"]`, identity model, input shape `[2, 3, 2]`; the output equals the
input, shape `[2, 3, 2]` included. -/
theorem lume_C3_round_trip_witness :
    (LUMEModule.init (α := Int) (fun d => .ok d) ["a", "b"] ["a", "b"]).forward
      ⟨[2, 3, 2], [0, 1, 2, 3, 4, 5, 6, 7, 8, 9, 10, 11]⟩ =
      .ok ⟨[2, 3, 2], [0, 1, 2, 3, 4, 5, 6, 7, 8, 9, 10, 11]⟩ := by
  have h := lume_C3_round_trip (LUMEModule.init (α := Int) (fun d => .ok d) ["a", "b"] ["a", "b"])
    ⟨[2, 3, 2], [0, 1, 2, 3, 4, 5, 6, 7, 8, 9, 10, 11]⟩ 2 3 2
    (by decide) (by decide) (by decide) rfl (by decide) rfl
    (fun d => rfl) rfl rfl
  exact h
